import Mathlib

/-!
# A proof-of-work ledger: hashing, mining, difficulty adjustment, validation

Shallow embedding of `main.go`.

Conventions of the embedding.

* A Go `string` is a Lean `String`; `[]byte(s)` is its UTF-8 encoding.
* A Go `int` / `int64` is an `Int`; every arithmetic operation of the source that
  can overflow is followed by `wrap64` (two's complement, 64 bit).  An arithmetic
  expression quoted from the source in a statement below, such as
  `oldBlock.Index + 1`, denotes that wrapped Go expression.
* A Go function that may panic or loop returns a `Result`.  An allocation panics
  above the runtime's `maxAlloc`; below it, running out of memory is not modelled.
* The global `Blockchain` is passed explicitly, and so is the reading of the clock.
* `crypto/sha256` is embedded in full (FIPS 180-4) over `Nat` words.
* `time.Parse(layout, ·)` followed by `.Unix()` is library code that is taken as a
  parameter `timeParse : String → Option Int` (`none` is a parse error).
-/

namespace GoBlockchain

/-! ## Go runtime -/

/-- Outcome of running a Go function: a value, a run-time panic, or no answer
within the number of loop iterations granted. -/
inductive Result (α : Type) where
  | ok (v : α)
  | panic (msg : String)
  | outOfFuel
  deriving DecidableEq, Repr

/-- Two's complement reduction of an integer to the range of a 64-bit Go `int`. -/
def wrap64 (x : Int) : Int := (x + 9223372036854775808) % 18446744073709551616 - 9223372036854775808

/-- Go `strconv.Itoa`: decimal digits, with a leading minus sign for negatives. -/
def Itoa (i : Int) : String :=
  if i < 0 then String.mk ('-' :: Nat.toDigits 10 i.natAbs) else String.mk (Nat.toDigits 10 i.toNat)

/-- Value of a decimal digit character. -/
def digitValue (c : Char) : Nat := c.toNat - 48

/-- Value of a list of decimal digits, most significant first, on top of `acc`. -/
def ofDigits (acc : Nat) : List Char → Nat
  | [] => acc
  | c :: cs => ofDigits (acc * 10 + digitValue c) cs

/-- Reading back of a decimal rendering (a left inverse of `Itoa`). -/
def Atoi (s : String) : Int :=
  match s.data with
  | '-' :: rest => - (ofDigits 0 rest : Int)
  | cs => (ofDigits 0 cs : Int)

/-- UTF-8 encoding of one code point, as a list of bytes. -/
def utf8EncodeChar (c : Char) : List Nat :=
  let v := c.toNat
  if v < 128 then [v]
  else if v < 2048 then [192 + v / 64, 128 + v % 64]
  else if v < 65536 then [224 + v / 4096, 128 + v / 64 % 64, 128 + v % 64]
  else [240 + v / 262144, 128 + v / 4096 % 64, 128 + v / 64 % 64, 128 + v % 64]

/-- Go `[]byte(s)`. -/
def bytesOf (s : String) : List Nat := s.data.flatMap utf8EncodeChar

/-- One lower-case hexadecimal digit. -/
def hexDigit (n : Nat) : Char := "0123456789abcdef".data.getD n '0'

/-- Go `hex.EncodeToString`. -/
def EncodeToString (bs : List Nat) : String :=
  String.mk (bs.flatMap fun b => [hexDigit (b / 16), hexDigit (b % 16)])

/-- The string `s` written `n` times. -/
def repeatN (s : String) : Nat → String
  | 0 => ""
  | n + 1 => s ++ repeatN s n

/-- The largest Go `int`. -/
def maxInt : Nat := 9223372036854775807

/-- The runtime constant `maxAlloc` of a 64-bit platform, 2^48: the largest number of
bytes that an allocation may ask for; above it `make` panics. -/
def maxAlloc : Nat := 281474976710656

/-- Go `strings.Repeat`: the counts 0 and 1 return at once; a negative count panics;
an output longer than the largest `int` panics; and the buffer of the output is then
allocated, which panics above `maxAlloc` bytes.  (An allocation within `maxAlloc` is
taken to succeed: the memory of the machine running out is not part of the model.) -/
def Repeat (s : String) (count : Int) : Result String :=
  if count = 0 then .ok ""
  else if count = 1 then .ok s
  else if count < 0 then .panic "strings: negative Repeat count"
  else if (bytesOf s).length * count.toNat > maxInt then
    .panic "strings: Repeat output length overflow"
  else if (bytesOf s).length * count.toNat > maxAlloc then
    .panic "makeslice: len out of range"
  else .ok (repeatN s count.toNat)

/-- Go `strings.HasPrefix`.  The comparison is made on code points; for well-formed
UTF-8 texts this is the same as the library's comparison of bytes. -/
def HasPrefix (s pre : String) : Bool := pre.data.isPrefixOf s.data

/-! ## SHA-256 (FIPS 180-4) -/

namespace Sha256

/-- The first 64 prime numbers. -/
def primes : List Nat :=
  [2, 3, 5, 7, 11, 13, 17, 19, 23, 29, 31, 37, 41, 43, 47, 53,
   59, 61, 67, 71, 73, 79, 83, 89, 97, 101, 103, 107, 109, 113, 127, 131,
   137, 139, 149, 151, 157, 163, 167, 173, 179, 181, 191, 193, 197, 199, 211, 223,
   227, 229, 233, 239, 241, 251, 257, 263, 269, 271, 277, 281, 283, 293, 307, 311]

/-- Integer `k`-th root by bisection: adds to `r` the bits below `bits`, highest first,
that keep its `k`-th power at most `n`. -/
def iroot (k n : Nat) : Nat → Nat → Nat
  | 0, r => r
  | bits + 1, r => if (r + 2 ^ bits) ^ k ≤ n then iroot k n bits (r + 2 ^ bits) else iroot k n bits r

/-- The first 32 bits of the fractional part of the `k`-th root of `p`. -/
def fracRoot (k p : Nat) : Nat := iroot k (p * 2 ^ (32 * k)) 36 0 % 2 ^ 32

/-- Round constants: fractional parts of the cube roots of the first 64 primes. -/
def K : List Nat := primes.map (fracRoot 3)

/-- Reduction to a 32-bit word. -/
def w32 (x : Nat) : Nat := x % 4294967296

/-- Rotation of a 32-bit word to the right. -/
def rotr (x n : Nat) : Nat := w32 ((x >>> n) ||| (x <<< (32 - n)))

def bsig0 (x : Nat) : Nat := rotr x 2 ^^^ rotr x 13 ^^^ rotr x 22

def bsig1 (x : Nat) : Nat := rotr x 6 ^^^ rotr x 11 ^^^ rotr x 25

def ssig0 (x : Nat) : Nat := rotr x 7 ^^^ rotr x 18 ^^^ (x >>> 3)

def ssig1 (x : Nat) : Nat := rotr x 17 ^^^ rotr x 19 ^^^ (x >>> 10)

def ch (x y z : Nat) : Nat := (x &&& y) ^^^ ((x ^^^ 0xffffffff) &&& z)

def maj (x y z : Nat) : Nat := (x &&& y) ^^^ (x &&& z) ^^^ (y &&& z)

/-- Big-endian bytes grouped into 32-bit words. -/
def words : List Nat → List Nat
  | a :: b :: c :: d :: rest => (a * 16777216 + b * 65536 + c * 256 + d) :: words rest
  | _ => []

/-- Message schedule extension by `n` words; `rev` holds the words so far, newest first. -/
def extend : Nat → List Nat → List Nat
  | 0, rev => rev
  | n + 1, rev =>
    extend n (w32 (ssig1 (rev.getD 1 0) + rev.getD 6 0 + ssig0 (rev.getD 14 0) + rev.getD 15 0) :: rev)

/-- The 64 schedule words of a 16-word block. -/
def schedule (block : List Nat) : List Nat := (extend 48 block.reverse).reverse

/-- The eight working variables. -/
structure State where
  a : Nat
  b : Nat
  c : Nat
  d : Nat
  e : Nat
  f : Nat
  g : Nat
  h : Nat
  deriving DecidableEq, Repr

/-- One of the 64 rounds, on a round constant paired with a schedule word. -/
def round (s : State) (kw : Nat × Nat) : State :=
  let t1 := s.h + bsig1 s.e + ch s.e s.f s.g + kw.1 + kw.2
  let t2 := bsig0 s.a + maj s.a s.b s.c
  ⟨w32 (t1 + t2), s.a, s.b, s.c, w32 (s.d + t1), s.e, s.f, s.g⟩

/-- Compression of one 16-word block into the chaining value. -/
def compress (hs : State) (block : List Nat) : State :=
  let r := (K.zip (schedule block)).foldl round hs
  ⟨w32 (hs.a + r.a), w32 (hs.b + r.b), w32 (hs.c + r.c), w32 (hs.d + r.d),
   w32 (hs.e + r.e), w32 (hs.f + r.f), w32 (hs.g + r.g), w32 (hs.h + r.h)⟩

/-- Big-endian rendering of `x` on `n` bytes. -/
def bigEndian (n : Nat) (x : Nat) : List Nat :=
  (List.range n).reverse.map fun i => (x >>> (8 * i)) % 256

/-- Padding: a one bit, zeros up to 56 modulo 64, the bit length on 8 bytes. -/
def pad (msg : List Nat) : List Nat :=
  msg ++ 0x80 :: List.replicate ((119 - msg.length % 64) % 64) 0 ++ bigEndian 8 (8 * msg.length)

/-- Compression of `n` consecutive blocks. -/
def blocks : Nat → List Nat → State → State
  | 0, _, s => s
  | n + 1, ws, s => blocks n (ws.drop 16) (compress s (ws.take 16))

/-- Initial chaining value: fractional parts of the square roots of the first 8 primes. -/
def init : State :=
  ⟨fracRoot 2 2, fracRoot 2 3, fracRoot 2 5, fracRoot 2 7,
   fracRoot 2 11, fracRoot 2 13, fracRoot 2 17, fracRoot 2 19⟩

/-- The 32-byte SHA-256 digest of a byte string. -/
def sum (msg : List Nat) : List Nat :=
  let ws := words (pad msg)
  let s := blocks (ws.length / 16) ws init
  [s.a, s.b, s.c, s.d, s.e, s.f, s.g, s.h].flatMap (bigEndian 4)

end Sha256

/-! ## Data model -/

/-- IEEE-754 binary64 value, kept as its bit pattern; the program only stores such values. -/
abbrev Float64 := Nat

def MINING_DIFFICULTY : Int := 4

/-- The constant `10.0`. -/
def MINING_REWARD : Float64 := 0x4024000000000000

def MINING_SENDER : String := "THE BLOCKCHAIN"

def BLOCK_GENERATION_INTERVAL : Int := 10

def DIFFICULTY_ADJUSTMENT_INTERVAL : Int := 10

structure Transactions where
  From : String
  To : String
  Amount : Float64
  TimeStamp : String
  deriving DecidableEq, Repr, Inhabited

structure Block where
  Index : Int
  Timestamp : String
  BPM : Int
  Hash : String
  PrevHash : String
  Transactions : List Transactions
  Nonce : Int
  Difficulty : Int
  deriving DecidableEq, Repr, Inhabited

/-- The zero value `Block{}`. -/
def Block.zero : Block := ⟨0, "", 0, "", "", [], 0, 0⟩

/-! ## Hasher -/

/-- The text that `calculateHash` digests. -/
def record (block : Block) : String :=
  Itoa block.Index ++ block.Timestamp ++ Itoa block.BPM ++ block.PrevHash ++ Itoa block.Nonce

def calculateHash (block : Block) : String :=
  EncodeToString (Sha256.sum (bytesOf (record block)))

/-! ## Validator -/

def isBlockValid (newBlock oldBlock : Block) : Result Bool :=
  if wrap64 (oldBlock.Index + 1) ≠ newBlock.Index then .ok false
  else if oldBlock.Hash ≠ newBlock.PrevHash then .ok false
  else if calculateHash newBlock ≠ newBlock.Hash then .ok false
  else
    match Repeat "0" newBlock.Difficulty with
    | .panic msg => .panic msg
    | .outOfFuel => .outOfFuel
    | .ok target => if !HasPrefix newBlock.Hash target then .ok false else .ok true

/-- The text `hash` begins with `difficulty` characters `'0'`. -/
def leadingZeros (difficulty : Int) (hash : String) : Prop :=
  List.replicate difficulty.toNat '0' <+: hash.data

instance (difficulty : Int) (hash : String) : Decidable (leadingZeros difficulty hash) := by
  unfold leadingZeros; infer_instance

/-! ## Miner -/

/-- The loop of `mineBlock`, run for at most `fuel` iterations. -/
def mineLoop (target : String) : Nat → Block → Result Block
  | 0, _ => .outOfFuel
  | fuel + 1, block =>
    let hashed : Block := { block with Hash := calculateHash block }
    if HasPrefix hashed.Hash target then .ok hashed
    else mineLoop target fuel { hashed with Nonce := wrap64 (hashed.Nonce + 1) }

/-- The block that `mineBlock` leaves behind its pointer argument. -/
def mineBlock (fuel : Nat) (block : Block) : Result Block :=
  match Repeat "0" block.Difficulty with
  | .panic msg => .panic msg
  | .outOfFuel => .outOfFuel
  | .ok target => mineLoop target fuel block

/-! ## Difficulty adjuster -/

/-- Go slice indexing `Blockchain[i]`, which panics outside `0 ≤ i < len`. -/
def index (Blockchain : List Block) (i : Int) : Result Block :=
  if i < 0 then .panic "index out of range"
  else
    match Blockchain[i.toNat]? with
    | some b => .ok b
    | none => .panic "index out of range"

/-- The result pair `(int64, error)` of `parseTimestamp`; `none` is the error. -/
def parseTimestamp (timeParse : String → Option Int) (timestamp : String) : Option Int :=
  match timeParse timestamp with
  | none => none
  | some t => some t

/-- First statement of `adjustDifficulty`:
`Blockchain[len(Blockchain)-DIFFICULTY_ADJUSTMENT_INTERVAL]`. -/
def prevAdjustmentBlock (Blockchain : List Block) : Result Block :=
  index Blockchain ((Blockchain.length : Int) - DIFFICULTY_ADJUSTMENT_INTERVAL)

def adjustDifficulty (timeParse : String → Option Int) (Blockchain : List Block)
    (lastBlock : Block) : Result Int :=
  match prevAdjustmentBlock Blockchain with
  | .panic msg => .panic msg
  | .outOfFuel => .outOfFuel
  | .ok prev =>
    match parseTimestamp timeParse lastBlock.Timestamp with
    | none => .ok lastBlock.Difficulty
    | some lastTime =>
      match parseTimestamp timeParse prev.Timestamp with
      | none => .ok lastBlock.Difficulty
      | some prevTime =>
        let expectedTime : Int := BLOCK_GENERATION_INTERVAL * DIFFICULTY_ADJUSTMENT_INTERVAL
        let timeTaken : Int := wrap64 (lastTime - prevTime)
        if timeTaken < expectedTime.tdiv 2 then .ok (wrap64 (prev.Difficulty + 1))
        else if timeTaken > expectedTime * 2 then .ok (wrap64 (prev.Difficulty - 1))
        else .ok prev.Difficulty

def getNewDifficulty (timeParse : String → Option Int) (Blockchain : List Block)
    (lastBlock : Block) : Result Int :=
  if lastBlock.Index.tmod DIFFICULTY_ADJUSTMENT_INTERVAL = 0 ∧ lastBlock.Index ≠ 0 then
    adjustDifficulty timeParse Blockchain lastBlock
  else .ok lastBlock.Difficulty

/-- The block built by `generateBlock`; `now` is the text `t.String()` of the clock
reading `t := time.Now()`.  The Go `error` result is always `nil` and is left out. -/
def generateBlock (timeParse : String → Option Int) (Blockchain : List Block) (now : String)
    (fuel : Nat) (oldBlock : Block) (BPM : Int) : Result Block :=
  match getNewDifficulty timeParse Blockchain oldBlock with
  | .panic msg => .panic msg
  | .outOfFuel => .outOfFuel
  | .ok difficulty =>
    mineBlock fuel
      { Index := wrap64 (oldBlock.Index + 1)
        Timestamp := now
        BPM := BPM
        Hash := ""
        PrevHash := oldBlock.Hash
        Transactions := [⟨MINING_SENDER, "MinerAddress", MINING_REWARD, now⟩]
        Nonce := 0
        Difficulty := difficulty }

/-! ## Ledger -/

/-- The value of the global `Blockchain` after `replaceChain(newBlocks)`. -/
def replaceChain (Blockchain newBlocks : List Block) : List Block :=
  if newBlocks.length > Blockchain.length then newBlocks else Blockchain

/-- The genesis block built in `main`; `now` is the text `t.String()` of the clock
reading taken there. -/
def genesisBlock (now : String) : Block :=
  { Index := 0
    Timestamp := now
    BPM := 0
    Hash := calculateHash Block.zero
    PrevHash := ""
    Transactions := []
    Nonce := 0
    Difficulty := 0 }

/-- Go `http.StatusBadRequest`. -/
def StatusBadRequest : Nat := 400

/-- Go `http.StatusCreated`. -/
def StatusCreated : Nat := 201

/-- One sequential run of `handleWriteBlock`: the value of the global `Blockchain`
when the handler returns, with the status code of its response.  `body` is the
outcome of decoding the request body into a `Message` (`none` is a decoding error,
`some v` a message with `BPM = v`).  The branch on the `error` of `generateBlock` is
dead, that error being always `nil`. -/
def handleWriteBlock (timeParse : String → Option Int) (Blockchain : List Block)
    (body : Option Int) (now : String) (fuel : Nat) : Result (List Block × Nat) :=
  match body with
  | none => .ok (Blockchain, StatusBadRequest)
  | some BPM =>
    match index Blockchain ((Blockchain.length : Int) - 1) with
    | .panic msg => .panic msg
    | .outOfFuel => .outOfFuel
    | .ok tip =>
      match generateBlock timeParse Blockchain now fuel tip BPM with
      | .panic msg => .panic msg
      | .outOfFuel => .outOfFuel
      | .ok newBlock =>
        match isBlockValid newBlock tip with
        | .panic msg => .panic msg
        | .outOfFuel => .outOfFuel
        | .ok true => .ok (replaceChain Blockchain (Blockchain ++ [newBlock]), StatusCreated)
        | .ok false => .ok (Blockchain, StatusCreated)

/-- One request to `handleWriteBlock` with what the run depends on: the decoded body,
the clock text, and the number of mining iterations granted. -/
structure Proposal where
  body : Option Int
  now : String
  fuel : Nat
  deriving DecidableEq, Repr

/-- The chain after a sequential proposal.  A handler that panics (the server
recovers the panic) or that never returns has not written to the chain. -/
def propose (timeParse : String → Option Int) (Blockchain : List Block) (req : Proposal) :
    List Block :=
  match handleWriteBlock timeParse Blockchain req.body req.now req.fuel with
  | .ok (chain, _) => chain
  | .panic _ => Blockchain
  | .outOfFuel => Blockchain

/-- The chain after a finite sequence of sequential proposals. -/
def proposeAll (timeParse : String → Option Int) (Blockchain : List Block)
    (reqs : List Proposal) : List Block :=
  reqs.foldl (propose timeParse) Blockchain

/-- Invariant of the ledger: the chain is non-empty, the block at position `i` has the
index `i` (as a Go `int`), and every block passes `isBlockValid` against the block
before it. -/
def Linked (chain : List Block) : Prop :=
  chain ≠ [] ∧
  (∀ (i : Nat) (b : Block), chain[i]? = some b → b.Index = wrap64 i) ∧
  (∀ (i : Nat) (a b : Block), chain[i]? = some a → chain[i + 1]? = some b →
    isBlockValid b a = .ok true)

/-! ## Sample data -/

/-- A genesis block as built in `main`, with difficulty 4 in place of 0. -/
def genesis4 : Block :=
  { Index := 0
    Timestamp := "2024-03-09 10:14:15.000291345 +0000 UTC m=+0.004083921"
    BPM := 0
    Hash := calculateHash Block.zero
    PrevHash := ""
    Transactions := []
    Nonce := 0
    Difficulty := 4 }

/-- A clock reading for which mining payload 42 on `genesis4` succeeds at nonce 2. -/
def sampleNow : String := "2024-03-09 10:15:30.123093632 +0000 UTC m=+75.004211302"

/-- The block mined from `genesis4`, payload 42, at `sampleNow`. -/
def minedBlock : Block :=
  { Index := 1
    Timestamp := sampleNow
    BPM := 42
    Hash := "0000d391d92162d728fee7ea4d25f410045407ff5ce2ea9dcb6b78d5dec5270e"
    PrevHash := "2ac9a6746aca543af8dff39894cfe8173afba21eb01c6fae33d52947222855ef"
    Transactions := [⟨MINING_SENDER, "MinerAddress", MINING_REWARD, sampleNow⟩]
    Nonce := 2
    Difficulty := 4 }

/-- A finite excerpt of the graph of `time.Parse(layout, ·)` followed by `.Unix()`. -/
def sampleClock (timestamp : String) : Option Int :=
  ([("2024-03-09 10:00:00 +0000 UTC", 1709978400),
    ("2024-03-09 10:00:01 +0000 UTC", 1709978401),
    ("2024-03-09 10:00:02 +0000 UTC", 1709978402),
    ("2024-03-09 10:00:03 +0000 UTC", 1709978403),
    ("2024-03-09 10:00:04 +0000 UTC", 1709978404),
    ("2024-03-09 10:00:05 +0000 UTC", 1709978405),
    ("2024-03-09 10:00:06 +0000 UTC", 1709978406),
    ("2024-03-09 10:00:07 +0000 UTC", 1709978407),
    ("2024-03-09 10:00:08 +0000 UTC", 1709978408),
    ("2024-03-09 10:00:09 +0000 UTC", 1709978409),
    ("2024-03-09 10:00:10 +0000 UTC", 1709978410),
    ("2024-03-09 10:00:50 +0000 UTC", 1709978450),
    ("2024-03-09 10:00:51 +0000 UTC", 1709978451),
    ("2024-03-09 10:03:21 +0000 UTC", 1709978601),
    ("2024-03-09 10:03:22 +0000 UTC", 1709978602)] : List (String × Int)).lookup timestamp

/-- A block with the given index, timestamp and difficulty, all other fields zero. -/
def sampleBlock (i : Int) (timestamp : String) (difficulty : Int) : Block :=
  { Block.zero with Index := i, Timestamp := timestamp, Difficulty := difficulty }

/-- Eleven blocks, the block at position `i` having index `i`, one second apart;
block 0 has difficulty 0 and the others difficulty 4. -/
def fastChain : List Block :=
  [sampleBlock 0 "2024-03-09 10:00:00 +0000 UTC" 0,
   sampleBlock 1 "2024-03-09 10:00:01 +0000 UTC" 4,
   sampleBlock 2 "2024-03-09 10:00:02 +0000 UTC" 4,
   sampleBlock 3 "2024-03-09 10:00:03 +0000 UTC" 4,
   sampleBlock 4 "2024-03-09 10:00:04 +0000 UTC" 4,
   sampleBlock 5 "2024-03-09 10:00:05 +0000 UTC" 4,
   sampleBlock 6 "2024-03-09 10:00:06 +0000 UTC" 4,
   sampleBlock 7 "2024-03-09 10:00:07 +0000 UTC" 4,
   sampleBlock 8 "2024-03-09 10:00:08 +0000 UTC" 4,
   sampleBlock 9 "2024-03-09 10:00:09 +0000 UTC" 4,
   sampleBlock 10 "2024-03-09 10:00:10 +0000 UTC" 4]

/-- The tip of `fastChain`. -/
def fastTip : Block := sampleBlock 10 "2024-03-09 10:00:10 +0000 UTC" 4

/-- A tip of index 10 and difficulty 7 stamped `timestamp`. -/
def tipAt (timestamp : String) : Block := sampleBlock 10 timestamp 7

/-- The chain `fastChain` with the timestamp of block 1 replaced by a clock text
that carries a monotonic reading. -/
def oddChain : List Block := fastChain.set 1 (sampleBlock 1 sampleNow 4)

/-- The reference block in the words of the specification: the block of the chain
whose index is `tip.Index - interval`. -/
def referenceBlockSpec (Blockchain : List Block) (tip : Block) : Option Block :=
  Blockchain.find? fun b => b.Index = tip.Index - DIFFICULTY_ADJUSTMENT_INTERVAL

/-- A block that passes the first three checks against `genesis4` and announces
the difficulty -1. -/
def forgedBlock : Block :=
  { Index := 1
    Timestamp := sampleNow
    BPM := 42
    Hash := "97010f576c48aa4e20aed363464160d091ecdd66c868418c6efad1fb9ead6375"
    PrevHash := "2ac9a6746aca543af8dff39894cfe8173afba21eb01c6fae33d52947222855ef"
    Transactions := []
    Nonce := 0
    Difficulty := -1 }

/-- The block `forgedBlock` with the largest `int` as difficulty: it passes the first
three checks against `genesis4`, and its hash does not begin with `'0'`. -/
def hugeBlock : Block := { forgedBlock with Difficulty := 9223372036854775807 }

/-- Eleven blocks of difficulty 0, the block at position `i` having index `i`; the
first ten are one second apart and the tip comes 201 seconds after block 1. -/
def slowChain : List Block :=
  [sampleBlock 0 "2024-03-09 10:00:00 +0000 UTC" 0,
   sampleBlock 1 "2024-03-09 10:00:01 +0000 UTC" 0,
   sampleBlock 2 "2024-03-09 10:00:02 +0000 UTC" 0,
   sampleBlock 3 "2024-03-09 10:00:03 +0000 UTC" 0,
   sampleBlock 4 "2024-03-09 10:00:04 +0000 UTC" 0,
   sampleBlock 5 "2024-03-09 10:00:05 +0000 UTC" 0,
   sampleBlock 6 "2024-03-09 10:00:06 +0000 UTC" 0,
   sampleBlock 7 "2024-03-09 10:00:07 +0000 UTC" 0,
   sampleBlock 8 "2024-03-09 10:00:08 +0000 UTC" 0,
   sampleBlock 9 "2024-03-09 10:00:09 +0000 UTC" 0,
   sampleBlock 10 "2024-03-09 10:03:22 +0000 UTC" 0]

/-- The tip of `slowChain`. -/
def slowTip : Block := sampleBlock 10 "2024-03-09 10:03:22 +0000 UTC" 0

/-- The genesis block of `main` for a sample clock reading. -/
def genesis0 : Block := genesisBlock "2024-03-09 10:14:15.000291345 +0000 UTC m=+0.004083921"

/-- The block mined from `genesis0`, payload 42, at `sampleNow`: difficulty 0, so the
first digest is accepted. -/
def firstBlock : Block :=
  { Index := 1
    Timestamp := sampleNow
    BPM := 42
    Hash := "97010f576c48aa4e20aed363464160d091ecdd66c868418c6efad1fb9ead6375"
    PrevHash := "2ac9a6746aca543af8dff39894cfe8173afba21eb01c6fae33d52947222855ef"
    Transactions := [⟨MINING_SENDER, "MinerAddress", MINING_REWARD, sampleNow⟩]
    Nonce := 0
    Difficulty := 0 }

/-- A header with index 1 and timestamp "2". -/
def headerA : Block := sampleBlock 1 "2" 0

/-- A header with index 12 and an empty timestamp. -/
def headerB : Block := sampleBlock 12 "" 0

/-! ## Hashing: test vectors -/

/-- The first and the last round constant, and the first word of the initial value. -/
theorem sha256_constants :
    Sha256.K.head? = some 0x428a2f98 ∧ Sha256.K.getLast? = some 0xc67178f2 ∧
      Sha256.K.length = 64 ∧ Sha256.init.a = 0x6a09e667 ∧ Sha256.init.h = 0x5be0cd19 := by
  decide!

/-- Digest of the empty message. -/
theorem sha256_empty :
    EncodeToString (Sha256.sum (bytesOf "")) =
      "e3b0c44298fc1c149afbf4c8996fb92427ae41e4649b934ca495991b7852b855" := by decide!

/-- Digest of `abc` (FIPS 180-4 example). -/
theorem sha256_abc :
    EncodeToString (Sha256.sum (bytesOf "abc")) =
      "ba7816bf8f01cfea414140de5dae2223b00361a396177a9cb410ff61f20015ad" := by decide!

/-- Digest of a 56-byte message, which pads to two blocks (FIPS 180-4 example). -/
theorem sha256_two_blocks :
    EncodeToString (Sha256.sum (bytesOf "abcdbcdecdefdefgefghfghighijhijkijkljklmklmnlmnomnopnopq")) =
      "248d6a61d20638b8e5c026930c3e6039a33ce45964ff2167f6ecedd419db06c1" := by decide!

/-! ## Runtime lemmas -/

theorem repeatN_data (s : String) (c : Char) (hs : s.data = [c]) (n : Nat) :
    (repeatN s n).data = List.replicate n c := by
  induction n with
  | zero => rfl
  | succ k ih => simp [repeatN, String.data_append, hs, ih, List.replicate_succ]

theorem hasPrefix_zeros (hash : String) (n : Nat) :
    HasPrefix hash (repeatN "0" n) = true ↔ List.replicate n '0' <+: hash.data := by
  rw [HasPrefix, repeatN_data "0" '0' rfl, List.isPrefixOf_iff_prefix]

theorem bytesOf_zero : (bytesOf "0").length = 1 := by decide

/-- `strings.Repeat("0", count)` returns for every count from 0 to `maxAlloc`. -/
theorem repeat_zeros (count : Int) (h : 0 ≤ count ∧ count ≤ maxAlloc) :
    Repeat "0" count = .ok (repeatN "0" count.toNat) := by
  obtain ⟨h0, h1⟩ := h
  unfold Repeat
  by_cases hz : count = 0
  · subst hz; rfl
  · by_cases ho : count = 1
    · subst ho; decide
    · have hn : ¬ count < 0 := not_lt.mpr h0
      have h2 : ¬ (bytesOf "0").length * count.toNat > maxInt := by
        rw [bytesOf_zero]; unfold maxInt; unfold maxAlloc at h1; omega
      have h3 : ¬ (bytesOf "0").length * count.toNat > maxAlloc := by
        rw [bytesOf_zero]; unfold maxAlloc at h1 ⊢; omega
      rw [if_neg hz, if_neg ho, if_neg hn, if_neg h2, if_neg h3]

/-- `strings.Repeat("0", count)` returns only for a count from 0 to `maxAlloc`. -/
theorem repeat_zeros_inv (count : Int) (t : String) (h : Repeat "0" count = .ok t) :
    0 ≤ count ∧ count ≤ maxAlloc := by
  unfold Repeat at h
  by_cases hz : count = 0
  · subst hz; exact ⟨le_refl 0, by decide⟩
  · by_cases ho : count = 1
    · subst ho; exact ⟨by decide, by decide⟩
    · rw [if_neg hz, if_neg ho] at h
      by_cases hn : count < 0
      · rw [if_pos hn] at h; cases h
      · rw [if_neg hn] at h
        by_cases h2 : (bytesOf "0").length * count.toNat > maxInt
        · rw [if_pos h2] at h; cases h
        · rw [if_neg h2] at h
          by_cases h3 : (bytesOf "0").length * count.toNat > maxAlloc
          · rw [if_pos h3] at h; cases h
          · rw [bytesOf_zero] at h3
            unfold maxAlloc at h3 ⊢
            exact ⟨by omega, by omega⟩

/-- On the range of a 64-bit `int` the reduction `wrap64` changes nothing. -/
theorem wrap64_of_range (x : Int) (hlo : -9223372036854775808 ≤ x)
    (hhi : x < 9223372036854775808) : wrap64 x = x := by
  unfold wrap64
  omega

/-! ## Decimal rendering -/

theorem toDigitsCore_append (fuel n : Nat) (acc : List Char) :
    Nat.toDigitsCore 10 fuel n acc = Nat.toDigitsCore 10 fuel n [] ++ acc := by
  induction fuel generalizing n acc with
  | zero => simp [Nat.toDigitsCore]
  | succ k ih =>
    simp only [Nat.toDigitsCore]
    split
    · simp
    · rw [ih (n / 10) (_ :: acc), ih (n / 10) [_]]
      simp

theorem digitValue_digitChar (d : Nat) (h : d < 10) : digitValue (Nat.digitChar d) = d := by
  interval_cases d <;> decide!

theorem digitChar_ne_minus (d : Nat) (h : d < 10) : Nat.digitChar d ≠ '-' := by
  interval_cases d <;> simp [Nat.digitChar]

theorem ofDigits_append (acc : Nat) (xs ys : List Char) :
    ofDigits acc (xs ++ ys) = ofDigits (ofDigits acc xs) ys := by
  induction xs generalizing acc with
  | nil => rfl
  | cons c cs ih => exact ih (acc * 10 + digitValue c)

theorem ofDigits_toDigitsCore (fuel n : Nat) (h : n < fuel) :
    ofDigits 0 (Nat.toDigitsCore 10 fuel n []) = n ∧
      ∀ c ∈ Nat.toDigitsCore 10 fuel n [], c ≠ '-' := by
  induction fuel generalizing n with
  | zero => omega
  | succ k ih =>
    simp only [Nat.toDigitsCore]
    have hd : n % 10 < 10 := Nat.mod_lt _ (by decide)
    split
    · constructor
      · show 0 * 10 + digitValue (Nat.digitChar (n % 10)) = n
        rw [digitValue_digitChar _ hd]
        omega
      · intro c hc
        simp at hc
        rw [hc]
        exact digitChar_ne_minus _ hd
    · have hlt : n / 10 < k := by omega
      obtain ⟨h1, h2⟩ := ih (n / 10) hlt
      rw [toDigitsCore_append]
      constructor
      · rw [ofDigits_append, h1]
        show n / 10 * 10 + digitValue (Nat.digitChar (n % 10)) = n
        rw [digitValue_digitChar _ hd]
        omega
      · intro c hc
        simp at hc
        rcases hc with hc | hc
        · exact h2 c hc
        · rw [hc]; exact digitChar_ne_minus _ hd

theorem Atoi_Itoa (i : Int) : Atoi (Itoa i) = i := by
  unfold Itoa
  by_cases h : i < 0
  · rw [if_pos h]
    simp only [Atoi, Nat.toDigits]
    rw [(ofDigits_toDigitsCore _ _ (Nat.lt_succ_self _)).1]
    omega
  · rw [if_neg h]
    obtain ⟨h1, h2⟩ := ofDigits_toDigitsCore (i.toNat + 1) i.toNat (Nat.lt_succ_self _)
    unfold Atoi
    simp only [Nat.toDigits]
    split
    · rename_i rest heq
      exact absurd rfl (h2 '-' (by rw [heq]; simp))
    · rw [h1]; omega

/-- Distinct integers have distinct decimal renderings. -/
theorem Itoa_injective : Function.Injective Itoa := fun a b h => by
  rw [← Atoi_Itoa a, ← Atoi_Itoa b, h]

/-! ## Validator -/

/-- For a difficulty from 0 to `maxAlloc` the validator answers, and its answer is the
truth value of the conjunction of the four checks. -/
theorem isBlockValid_ok_iff (n o : Block)
    (hd : 0 ≤ n.Difficulty ∧ n.Difficulty ≤ maxAlloc) (b : Bool) :
    isBlockValid n o = .ok b ↔
      (b = true ↔ (n.Index = wrap64 (o.Index + 1) ∧ n.PrevHash = o.Hash ∧
        calculateHash n = n.Hash ∧ leadingZeros n.Difficulty n.Hash)) := by
  unfold isBlockValid leadingZeros
  rw [repeat_zeros _ hd]
  by_cases h1 : wrap64 (o.Index + 1) = n.Index
  · by_cases h2 : o.Hash = n.PrevHash
    · by_cases h3 : calculateHash n = n.Hash
      · by_cases h4 : List.replicate n.Difficulty.toNat '0' <+: n.Hash.data
        · have h4b := (hasPrefix_zeros n.Hash n.Difficulty.toNat).mpr h4
          cases b <;> simp [h1, h2, h3, h4, h4b]
        · have h4b : HasPrefix n.Hash (repeatN "0" n.Difficulty.toNat) = false := by
            rw [Bool.eq_false_iff]
            exact fun hp => h4 ((hasPrefix_zeros _ _).mp hp)
          cases b <;> simp [h1, h2, h3, h4, h4b]
      · cases b <;> simp [h1, h2, h3]
    · have h2n : ¬ n.PrevHash = o.Hash := fun e => h2 e.symm
      cases b <;> simp [h1, h2, h2n]
  · have h1n : ¬ n.Index = wrap64 (o.Index + 1) := fun e => h1 e.symm
    cases b <;> simp [h1, h1n]

/-- For a candidate `n` whose difficulty is from 0 to `maxAlloc` and a predecessor `o`,
`isBlockValid n o` returns true exactly when the four checks hold together
(index is the predecessor's plus one, previous hash is the predecessor's hash,
the recomputed digest is the stored hash, the hash begins with `n.Difficulty`
characters `'0'`), and returns false as soon as one of them fails. -/
theorem isBlockValid_iff (n o : Block) (hd : 0 ≤ n.Difficulty)
    (hmax : n.Difficulty ≤ maxAlloc) :
    (isBlockValid n o = .ok true ↔
      (n.Index = wrap64 (o.Index + 1) ∧ n.PrevHash = o.Hash ∧ calculateHash n = n.Hash ∧
        leadingZeros n.Difficulty n.Hash)) ∧
    (¬ (n.Index = wrap64 (o.Index + 1) ∧ n.PrevHash = o.Hash ∧ calculateHash n = n.Hash ∧
        leadingZeros n.Difficulty n.Hash) → isBlockValid n o = .ok false) := by
  refine ⟨?_, ?_⟩
  · rw [isBlockValid_ok_iff n o ⟨hd, hmax⟩ true]; simp
  · intro hn
    rw [isBlockValid_ok_iff n o ⟨hd, hmax⟩ false]; simp [hn]

/-- The block mined from `genesis4` passes all four checks. -/
theorem isBlockValid_iff_witness :
    isBlockValid minedBlock genesis4 = .ok true ∧
      (minedBlock.Index = wrap64 (genesis4.Index + 1) ∧ minedBlock.PrevHash = genesis4.Hash ∧
        calculateHash minedBlock = minedBlock.Hash ∧
        leadingZeros minedBlock.Difficulty minedBlock.Hash) :=
  have h := (isBlockValid_iff minedBlock genesis4 (by decide) (by decide)).1
  ⟨by decide!, h.mp (by decide!)⟩

/-! ## Miner -/

theorem calculateHash_setHash (b : Block) (h : String) :
    calculateHash { b with Hash := h } = calculateHash b := rfl

/-- A block returned by the mining loop carries its own digest, the digest has
the target as a beginning, and only `Hash` and `Nonce` differ from the input. -/
theorem mineLoop_ok (target : String) (fuel : Nat) (b r : Block)
    (h : mineLoop target fuel b = .ok r) :
    r.Index = b.Index ∧ r.Timestamp = b.Timestamp ∧ r.BPM = b.BPM ∧ r.PrevHash = b.PrevHash ∧
      r.Transactions = b.Transactions ∧ r.Difficulty = b.Difficulty ∧
      r.Hash = calculateHash r ∧ HasPrefix r.Hash target = true := by
  induction fuel generalizing b with
  | zero => simp [mineLoop] at h
  | succ k ih =>
    rw [mineLoop] at h
    by_cases hp : HasPrefix (calculateHash b) target = true
    · simp only [hp, if_true, Result.ok.injEq] at h
      subst h
      exact ⟨rfl, rfl, rfl, rfl, rfl, rfl, rfl, hp⟩
    · have hp' : HasPrefix (calculateHash b) target = false := by simpa using hp
      simp only [hp', Bool.false_eq_true, if_false] at h
      have hrec := ih _ h
      exact hrec

/-- More fuel never changes a result that the mining loop has reached. -/
theorem mineLoop_fuel_mono (target : String) (fuel extra : Nat) (b r : Block)
    (h : mineLoop target fuel b = .ok r) : mineLoop target (fuel + extra) b = .ok r := by
  induction fuel generalizing b with
  | zero => simp [mineLoop] at h
  | succ k ih =>
    rw [Nat.add_right_comm, mineLoop]
    rw [mineLoop] at h
    by_cases hp : HasPrefix (calculateHash b) target = true
    · simp only [hp, if_true] at h ⊢
      exact h
    · have hp' : HasPrefix (calculateHash b) target = false := by simpa using hp
      simp only [hp', Bool.false_eq_true, if_false] at h ⊢
      exact ih _ h

theorem mineBlock_ok (fuel : Nat) (b r : Block) (h : mineBlock fuel b = .ok r) :
    (0 ≤ b.Difficulty ∧ b.Difficulty ≤ maxAlloc) ∧
      mineLoop (repeatN "0" b.Difficulty.toNat) fuel b = .ok r := by
  unfold mineBlock at h
  cases hrep : Repeat "0" b.Difficulty with
  | panic msg => simp [hrep] at h
  | outOfFuel => simp [hrep] at h
  | ok target =>
    have hd := repeat_zeros_inv _ _ hrep
    rw [repeat_zeros _ hd] at h
    exact ⟨hd, h⟩

theorem mineBlock_fuel_mono (fuel extra : Nat) (b r : Block) (h : mineBlock fuel b = .ok r) :
    mineBlock (fuel + extra) b = .ok r := by
  obtain ⟨hd, hloop⟩ := mineBlock_ok fuel b r h
  unfold mineBlock
  rw [repeat_zeros _ hd]
  exact mineLoop_fuel_mono _ fuel extra b r hloop

/-- C2: every block `b` returned by `generateBlock` on predecessor `p` and payload `v`
has index `p.Index + 1`, previous hash `p.Hash`, payload `v`, the difficulty returned by
`getNewDifficulty p`, its own digest as hash, and a hash beginning with `b.Difficulty`
characters `'0'`; for a predecessor of index 0 and difficulty 4 and payload 42 the
result has index 1, the predecessor's hash as previous hash, and a hash beginning
with "0000".  The block returned does not depend on the iteration bound: any larger
bound returns the same block. -/
theorem generateBlock_spec (timeParse : String → Option Int) (chain : List Block)
    (now : String) (fuel : Nat) (p : Block) (v : Int) (b : Block)
    (h : generateBlock timeParse chain now fuel p v = .ok b) :
    (b.Index = wrap64 (p.Index + 1) ∧ b.PrevHash = p.Hash ∧ b.BPM = v ∧
      getNewDifficulty timeParse chain p = .ok b.Difficulty ∧ b.Hash = calculateHash b ∧
      leadingZeros b.Difficulty b.Hash) ∧
    (p.Index = 0 → p.Difficulty = 4 → v = 42 →
      b.Index = 1 ∧ b.PrevHash = p.Hash ∧ "0000".data <+: b.Hash.data) ∧
    (∀ extra : Nat, generateBlock timeParse chain now (fuel + extra) p v = .ok b) := by
  unfold generateBlock at h
  cases hg : getNewDifficulty timeParse chain p with
  | panic msg => simp [hg] at h
  | outOfFuel => simp [hg] at h
  | ok d =>
    simp only [hg] at h
    obtain ⟨-, hloop⟩ := mineBlock_ok _ _ _ h
    obtain ⟨hi, -, hb, hp, -, hd, hh, hz⟩ := mineLoop_ok _ _ _ _ hloop
    simp only at hi hb hp hd hz
    have hz' : leadingZeros b.Difficulty b.Hash := by
      unfold leadingZeros
      rw [hd]
      exact (hasPrefix_zeros _ _).mp hz
    refine ⟨⟨hi, hp, hb, by rw [hd], hh, hz'⟩, ?_, ?_⟩
    · intro h0 h4 _
      have hd4 : b.Difficulty = 4 := by
        have : getNewDifficulty timeParse chain p = .ok p.Difficulty := by
          simp [getNewDifficulty, h0]
        rw [hg, h4] at this
        rw [hd]
        exact Result.ok.inj this
      refine ⟨by rw [hi, h0]; decide, hp, ?_⟩
      have := hz'
      rw [hd4] at this
      exact this
    · intro extra
      unfold generateBlock
      simp only [hg]
      exact mineBlock_fuel_mono fuel extra _ b h

/-- Witness of C2: payload 42 proposed on `genesis4` at `sampleNow` is mined in
three iterations into `minedBlock`. -/
theorem generateBlock_spec_witness :
    generateBlock sampleClock [genesis4] sampleNow 3 genesis4 42 = .ok minedBlock ∧
      minedBlock.Index = 1 ∧ minedBlock.PrevHash = genesis4.Hash ∧
      "0000".data <+: minedBlock.Hash.data :=
  have h : generateBlock sampleClock [genesis4] sampleNow 3 genesis4 42 = .ok minedBlock := by
    decide!
  ⟨h, (generateBlock_spec sampleClock [genesis4] sampleNow 3 genesis4 42 minedBlock h).2.1
    rfl rfl rfl⟩

/-! ## Difficulty adjuster -/

theorem due_of_positive_multiple (tip : Block) (hpos : 0 < tip.Index)
    (hmul : (10 : Int) ∣ tip.Index) :
    tip.Index.tmod DIFFICULTY_ADJUSTMENT_INTERVAL = 0 ∧ tip.Index ≠ 0 :=
  ⟨Int.tmod_eq_zero_of_dvd hmul, ne_of_gt hpos⟩

/-- C3: when an adjustment is due, the reference block is in range and both
timestamps parse, with `actual` the tip time minus the reference time and the
expected time 10 * 10 = 100, `adjustDifficulty` (which is then what
`getNewDifficulty` returns) gives `reference.Difficulty + 1` if `actual < 50`,
`reference.Difficulty - 1` if `actual > 200`, and `reference.Difficulty` itself for
every `actual` from 50 to 200, both bounds included. -/
theorem adjustDifficulty_thresholds (timeParse : String → Option Int) (chain : List Block)
    (tip ref : Block) (lastTime prevTime : Int)
    (hpos : 0 < tip.Index) (hmul : (10 : Int) ∣ tip.Index)
    (href : prevAdjustmentBlock chain = .ok ref)
    (hl : parseTimestamp timeParse tip.Timestamp = some lastTime)
    (hp : parseTimestamp timeParse ref.Timestamp = some prevTime) :
    BLOCK_GENERATION_INTERVAL * DIFFICULTY_ADJUSTMENT_INTERVAL = 100 ∧
    getNewDifficulty timeParse chain tip = adjustDifficulty timeParse chain tip ∧
    (wrap64 (lastTime - prevTime) < 50 →
      adjustDifficulty timeParse chain tip = .ok (wrap64 (ref.Difficulty + 1))) ∧
    (wrap64 (lastTime - prevTime) > 200 →
      adjustDifficulty timeParse chain tip = .ok (wrap64 (ref.Difficulty - 1))) ∧
    (50 ≤ wrap64 (lastTime - prevTime) → wrap64 (lastTime - prevTime) ≤ 200 →
      adjustDifficulty timeParse chain tip = .ok ref.Difficulty) := by
  have hc : BLOCK_GENERATION_INTERVAL * DIFFICULTY_ADJUSTMENT_INTERVAL = 100 := by decide
  have h50 : (100 : Int).tdiv 2 = 50 := by decide
  have h200 : (100 : Int) * 2 = 200 := by decide
  have hadj : adjustDifficulty timeParse chain tip =
      if wrap64 (lastTime - prevTime) < 50 then .ok (wrap64 (ref.Difficulty + 1))
      else if wrap64 (lastTime - prevTime) > 200 then .ok (wrap64 (ref.Difficulty - 1))
      else .ok ref.Difficulty := by
    unfold adjustDifficulty
    simp only [href, hl, hp, hc, h50, h200]
  refine ⟨hc, ?_, ?_, ?_, ?_⟩
  · unfold getNewDifficulty
    rw [if_pos (due_of_positive_multiple tip hpos hmul)]
  · intro h
    rw [hadj, if_pos h]
  · intro h
    have hn : ¬ wrap64 (lastTime - prevTime) < 50 := by omega
    rw [hadj, if_neg hn, if_pos h]
  · intro h1 h2
    have hn1 : ¬ wrap64 (lastTime - prevTime) < 50 := by omega
    have hn2 : ¬ wrap64 (lastTime - prevTime) > 200 := by omega
    rw [hadj, if_neg hn1, if_neg hn2]

/-- Witness of C3: on `fastChain`, whose reference block has difficulty 4 and time
10:00:01, tips stamped 49, 50, 200 and 201 seconds later give 5, 4, 4 and 3. -/
theorem adjustDifficulty_thresholds_witness :
    adjustDifficulty sampleClock fastChain (tipAt "2024-03-09 10:00:50 +0000 UTC") = .ok 5 ∧
    adjustDifficulty sampleClock fastChain (tipAt "2024-03-09 10:00:51 +0000 UTC") = .ok 4 ∧
    adjustDifficulty sampleClock fastChain (tipAt "2024-03-09 10:03:21 +0000 UTC") = .ok 4 ∧
    adjustDifficulty sampleClock fastChain (tipAt "2024-03-09 10:03:22 +0000 UTC") = .ok 3 :=
  have href : prevAdjustmentBlock fastChain =
      .ok (sampleBlock 1 "2024-03-09 10:00:01 +0000 UTC" 4) := by decide
  have hp : parseTimestamp sampleClock (sampleBlock 1 "2024-03-09 10:00:01 +0000 UTC" 4).Timestamp
      = some 1709978401 := by decide
  ⟨(adjustDifficulty_thresholds sampleClock fastChain (tipAt "2024-03-09 10:00:50 +0000 UTC") _
      1709978450 1709978401 (by decide) (by decide) href (by decide) hp).2.2.1 (by decide),
   (adjustDifficulty_thresholds sampleClock fastChain (tipAt "2024-03-09 10:00:51 +0000 UTC") _
      1709978451 1709978401 (by decide) (by decide) href (by decide) hp).2.2.2.2
      (by decide) (by decide),
   (adjustDifficulty_thresholds sampleClock fastChain (tipAt "2024-03-09 10:03:21 +0000 UTC") _
      1709978601 1709978401 (by decide) (by decide) href (by decide) hp).2.2.2.2
      (by decide) (by decide),
   (adjustDifficulty_thresholds sampleClock fastChain (tipAt "2024-03-09 10:03:22 +0000 UTC") _
      1709978602 1709978401 (by decide) (by decide) href (by decide) hp).2.2.2.1 (by decide)⟩

/-- C4: for a tip whose index is 0 or is not a multiple of 10, and for every chain,
`getNewDifficulty` returns the tip's difficulty unchanged, whatever the chain is. -/
theorem getNewDifficulty_unchanged (timeParse : String → Option Int) (chain : List Block)
    (tip : Block) (h : tip.Index = 0 ∨ ¬ (10 : Int) ∣ tip.Index) :
    getNewDifficulty timeParse chain tip = .ok tip.Difficulty ∧
    ∀ other : List Block,
      getNewDifficulty timeParse other tip = getNewDifficulty timeParse chain tip := by
  have key : ∀ c : List Block, getNewDifficulty timeParse c tip = .ok tip.Difficulty := by
    intro c
    unfold getNewDifficulty
    rw [if_neg]
    rintro ⟨hm, hne⟩
    rcases h with h | h
    · exact hne h
    · exact h (Int.dvd_of_tmod_eq_zero hm)
  exact ⟨key chain, fun other => by rw [key other, key chain]⟩

/-- Witness of C4: a tip of index 0 on the empty chain, where any look-back would
panic, keeps its difficulty 4. -/
theorem getNewDifficulty_unchanged_witness :
    getNewDifficulty sampleClock [] genesis4 = .ok 4 :=
  (getNewDifficulty_unchanged sampleClock [] genesis4 (Or.inl rfl)).1

/-- In a chain of at least 10 blocks whose block at position `i` has index `i`, the
look-back of `adjustDifficulty` is the block of index `len - 10`. -/
theorem prevAdjustmentBlock_index (chain : List Block)
    (hidx : ∀ (i : Nat) (b : Block), chain[i]? = some b → b.Index = i)
    (hlen : 10 ≤ chain.length) :
    ∃ ref, prevAdjustmentBlock chain = .ok ref ∧ ref.Index = (chain.length : Int) - 10 := by
  have hlt : chain.length - 10 < chain.length := by omega
  have hto : ((chain.length : Int) - 10).toNat = chain.length - 10 := by omega
  have hget : chain[chain.length - 10]? = some chain[chain.length - 10] :=
    List.getElem?_eq_getElem hlt
  refine ⟨chain[chain.length - 10], ?_, ?_⟩
  · unfold prevAdjustmentBlock index DIFFICULTY_ADJUSTMENT_INTERVAL
    have hnn : ¬ ((chain.length : Int) - 10 < 0) := by omega
    rw [if_neg hnn, hto, hget]
  · rw [hidx _ _ hget]
    omega

/-- C5 (refuted on the code): on the 11-block chain `fastChain`, produced
within 10 seconds, the tip has index 10 and the block of index `10 - 10 = 0` has
difficulty 0, yet the block read by `adjustDifficulty` is the block of index 1, of
difficulty 4, and the result is 5 and not 0 + 1. -/
theorem adjustDifficulty_reads_nine_back :
    fastChain.getLast? = some fastTip ∧
    referenceBlockSpec fastChain fastTip =
      some (sampleBlock 0 "2024-03-09 10:00:00 +0000 UTC" 0) ∧
    prevAdjustmentBlock fastChain = .ok (sampleBlock 1 "2024-03-09 10:00:01 +0000 UTC" 4) ∧
    (sampleBlock 1 "2024-03-09 10:00:01 +0000 UTC" 4).Index = fastTip.Index - 9 ∧
    getNewDifficulty sampleClock fastChain fastTip = .ok 5 ∧
    (sampleBlock 0 "2024-03-09 10:00:00 +0000 UTC" 0).Difficulty + 1 = 1 := by
  decide

/-- C6: when an adjustment is due, the reference block is in range, and the
timestamp of the tip or of the reference block fails to parse, `getNewDifficulty`
returns the tip's own difficulty, as a normal result. -/
theorem getNewDifficulty_parse_failure (timeParse : String → Option Int) (chain : List Block)
    (tip ref : Block) (hpos : 0 < tip.Index) (hmul : (10 : Int) ∣ tip.Index)
    (href : prevAdjustmentBlock chain = .ok ref)
    (hfail : parseTimestamp timeParse tip.Timestamp = none ∨
      parseTimestamp timeParse ref.Timestamp = none) :
    getNewDifficulty timeParse chain tip = .ok tip.Difficulty := by
  unfold getNewDifficulty
  rw [if_pos (due_of_positive_multiple tip hpos hmul)]
  unfold adjustDifficulty
  simp only [href]
  rcases hfail with h | h
  · simp only [h]
  · cases hl : parseTimestamp timeParse tip.Timestamp with
    | none => rfl
    | some t => simp only [h]

/-- Witness of C6: a tip of difficulty 7 whose timestamp does not parse, and a tip of
difficulty 7 on a chain whose reference block (difficulty 4) has a timestamp that does
not parse, both give 7. -/
theorem getNewDifficulty_parse_failure_witness :
    getNewDifficulty sampleClock fastChain (tipAt sampleNow) = .ok 7 ∧
    getNewDifficulty sampleClock oddChain (tipAt "2024-03-09 10:00:10 +0000 UTC") = .ok 7 :=
  ⟨getNewDifficulty_parse_failure sampleClock fastChain (tipAt sampleNow)
      (sampleBlock 1 "2024-03-09 10:00:01 +0000 UTC" 4) (by decide) (by decide) (by decide)
      (Or.inl (by decide)),
   getNewDifficulty_parse_failure sampleClock oddChain (tipAt "2024-03-09 10:00:10 +0000 UTC")
      (sampleBlock 1 sampleNow 4) (by decide) (by decide) (by decide) (Or.inr (by decide))⟩

/-! ## Ledger -/

/-- C7: after `replaceChain N` on a chain `C`, the chain is `N` if `N` is strictly
longer than `C` and is `C` otherwise; its length never decreases, and a non-empty
chain stays non-empty. -/
theorem replaceChain_spec (C N : List Block) :
    (N.length > C.length → replaceChain C N = N) ∧
    (N.length ≤ C.length → replaceChain C N = C) ∧
    C.length ≤ (replaceChain C N).length ∧
    (C ≠ [] → replaceChain C N ≠ []) := by
  unfold replaceChain
  refine ⟨fun h => if_pos h, fun h => if_neg (not_lt.mpr h), ?_, ?_⟩
  · split <;> omega
  · intro hC
    split
    · rename_i h
      intro hN
      rw [hN] at h
      simp at h
    · exact hC

/-- Witness of C7: a two-block candidate replaces a one-block chain, and one-block and
empty candidates leave it as it is. -/
theorem replaceChain_spec_witness :
    replaceChain [genesis4] [genesis4, minedBlock] = [genesis4, minedBlock] ∧
    replaceChain [genesis4] [minedBlock] = [genesis4] ∧
    replaceChain [genesis4] [] = [genesis4] :=
  ⟨(replaceChain_spec [genesis4] [genesis4, minedBlock]).1 (by decide),
   (replaceChain_spec [genesis4] [minedBlock]).2.1 (by decide),
   (replaceChain_spec [genesis4] []).2.1 (by decide)⟩

/-! ## Hasher -/

/-- C8: two blocks that agree on `Index`, `Timestamp`, `BPM`, `PrevHash` and `Nonce`
have the same digest, whatever their `Difficulty`, `Hash` and `Transactions`. -/
theorem calculateHash_depends_only (b₁ b₂ : Block) (hi : b₁.Index = b₂.Index)
    (ht : b₁.Timestamp = b₂.Timestamp) (hb : b₁.BPM = b₂.BPM)
    (hp : b₁.PrevHash = b₂.PrevHash) (hn : b₁.Nonce = b₂.Nonce) :
    calculateHash b₁ = calculateHash b₂ := by
  unfold calculateHash record
  rw [hi, ht, hb, hp, hn]

/-- Witness of C8: `minedBlock` and its copy with difficulty 9, an empty hash and no
transactions have the same digest. -/
theorem calculateHash_depends_only_witness :
    calculateHash minedBlock =
      calculateHash { minedBlock with Difficulty := 9, Hash := "", Transactions := [] } :=
  calculateHash_depends_only minedBlock
    { minedBlock with Difficulty := 9, Hash := "", Transactions := [] } rfl rfl rfl rfl rfl

/-! ## Validator: perturbed blocks -/

theorem isBlockValid_true_inv (n o : Block) (h : isBlockValid n o = .ok true) :
    wrap64 (o.Index + 1) = n.Index ∧ o.Hash = n.PrevHash ∧ calculateHash n = n.Hash := by
  unfold isBlockValid at h
  by_cases h1 : wrap64 (o.Index + 1) = n.Index
  · by_cases h2 : o.Hash = n.PrevHash
    · by_cases h3 : calculateHash n = n.Hash
      · exact ⟨h1, h2, h3⟩
      · simp [h1, h2, h3] at h
    · simp [h1, h2] at h
  · simp [h1] at h

/-- C9: if `isBlockValid n o` is true, then replacing exactly one of `n.Index`,
`n.PrevHash` or `n.Hash` by any different value gives a block that `isBlockValid`
rejects against `o`. -/
theorem isBlockValid_rejects_perturbed (n o : Block) (h : isBlockValid n o = .ok true) :
    (∀ i : Int, i ≠ n.Index → isBlockValid { n with Index := i } o = .ok false) ∧
    (∀ p : String, p ≠ n.PrevHash → isBlockValid { n with PrevHash := p } o = .ok false) ∧
    (∀ x : String, x ≠ n.Hash → isBlockValid { n with Hash := x } o = .ok false) := by
  obtain ⟨h1, h2, h3⟩ := isBlockValid_true_inv n o h
  refine ⟨?_, ?_, ?_⟩
  · intro i hi
    have hne : wrap64 (o.Index + 1) ≠ i := fun e => hi (by rw [← e, h1])
    simp [isBlockValid, hne]
  · intro p hp
    have hne : o.Hash ≠ p := fun e => hp (by rw [← e, h2])
    simp [isBlockValid, h1, hne]
  · intro x hx
    have hc : calculateHash { n with Hash := x } = n.Hash := by
      rw [calculateHash_setHash, h3]
    have hne : n.Hash ≠ x := fun e => hx e.symm
    simp [isBlockValid, h1, h2, hc, hne]

/-- Witness of C9: `minedBlock`, valid against `genesis4`, is rejected with index 2,
with an empty previous hash, and with its hash replaced by 64 zeros. -/
theorem isBlockValid_rejects_perturbed_witness :
    isBlockValid minedBlock genesis4 = .ok true ∧
    isBlockValid { minedBlock with Index := 2 } genesis4 = .ok false ∧
    isBlockValid { minedBlock with PrevHash := "" } genesis4 = .ok false ∧
    isBlockValid { minedBlock with
      Hash := "0000000000000000000000000000000000000000000000000000000000000000" } genesis4
      = .ok false :=
  have hv : isBlockValid minedBlock genesis4 = .ok true := by decide!
  have h := isBlockValid_rejects_perturbed minedBlock genesis4 hv
  ⟨hv, h.1 2 (by decide), h.2.1 "" (by decide), h.2.2 _ (by decide)⟩

/-- Changing only the payload of a block changes the text that is digested. -/
theorem record_payload_changed (n : Block) (v : Int) (hv : v ≠ n.BPM) :
    record { n with BPM := v } ≠ record n := by
  intro heq
  have hdata := congrArg String.data heq
  simp only [record, String.data_append, List.append_assoc] at hdata
  have h1 := List.append_cancel_right
    (List.append_cancel_left (List.append_cancel_left hdata))
  exact hv (Itoa_injective (String.ext h1))

/-- Changing only the nonce of a block changes the text that is digested. -/
theorem record_nonce_changed (n : Block) (k : Int) (hk : k ≠ n.Nonce) :
    record { n with Nonce := k } ≠ record n := by
  intro heq
  have hdata := congrArg String.data heq
  simp only [record, String.data_append, List.append_assoc] at hdata
  have h1 := List.append_cancel_left (List.append_cancel_left
    (List.append_cancel_left (List.append_cancel_left hdata)))
  exact hk (Itoa_injective (String.ext h1))

/-- A block that agrees with a valid block on `Index`, `PrevHash`, `Hash` and
`Difficulty` is rejected exactly when the digest of its header differs from the stored
hash, and is accepted otherwise. -/
theorem isBlockValid_header_changed (n m o : Block) (h : isBlockValid n o = .ok true)
    (hi : m.Index = n.Index) (hp : m.PrevHash = n.PrevHash) (hh : m.Hash = n.Hash)
    (hdiff : m.Difficulty = n.Difficulty) :
    (isBlockValid m o = .ok false ↔ calculateHash m ≠ n.Hash) ∧
    (calculateHash m = n.Hash → isBlockValid m o = .ok true) := by
  obtain ⟨h1, h2, h3⟩ := isBlockValid_true_inv n o h
  have hd : 0 ≤ n.Difficulty ∧ n.Difficulty ≤ maxAlloc := by
    cases hrep : Repeat "0" n.Difficulty with
    | panic msg => simp [isBlockValid, h1, h2, h3, hrep] at h
    | outOfFuel => simp [isBlockValid, h1, h2, h3, hrep] at h
    | ok target => exact repeat_zeros_inv _ _ hrep
  have hz : HasPrefix n.Hash (repeatN "0" n.Difficulty.toNat) = true := by
    have := (((isBlockValid_ok_iff n o hd true).mp h).mp rfl).2.2.2
    exact (hasPrefix_zeros _ _).mpr this
  by_cases hc : calculateHash m = n.Hash
  · simp [isBlockValid, hi, hp, hh, hdiff, h1, h2, hc, repeat_zeros _ hd, hz]
  · simp [isBlockValid, hi, hp, hh, h1, h2, hc]

/-! ## Validator: totality -/

/-- For a difficulty from 0 to `maxAlloc`, the length of the digest or not, the
validator answers true or false. -/
theorem isBlockValid_total_of_range (n o : Block)
    (hd : 0 ≤ n.Difficulty ∧ n.Difficulty ≤ maxAlloc) :
    isBlockValid n o = .ok true ∨ isBlockValid n o = .ok false := by
  by_cases h : n.Index = wrap64 (o.Index + 1) ∧ n.PrevHash = o.Hash ∧
      calculateHash n = n.Hash ∧ leadingZeros n.Difficulty n.Hash
  · exact Or.inl ((isBlockValid_ok_iff n o hd true).mpr ⟨fun _ => h, fun _ => rfl⟩)
  · exact Or.inr ((isBlockValid_ok_iff n o hd false).mpr
      ⟨fun hb => absurd hb (by decide), fun hc => absurd hc h⟩)

/-- C1 (refuted on the code): `hugeBlock` has a difficulty that is at least 0, the
index of `genesis4` plus one, the hash of `genesis4` as previous hash and its own
digest as hash, and its hash does not begin with that many characters `'0'`; on it
`isBlockValid` does not return false but panics, in the allocation made by
`strings.Repeat`. -/
theorem isBlockValid_panics_on_huge_difficulty :
    0 ≤ hugeBlock.Difficulty ∧
    hugeBlock.Index = wrap64 (genesis4.Index + 1) ∧
    hugeBlock.PrevHash = genesis4.Hash ∧
    calculateHash hugeBlock = hugeBlock.Hash ∧
    ¬ leadingZeros hugeBlock.Difficulty hugeBlock.Hash ∧
    isBlockValid hugeBlock genesis4 = .panic "makeslice: len out of range" := by
  decide!

/-- C11 (refuted on the code): `forgedBlock`, of difficulty -1, has index 1, the hash
of `genesis4` as previous hash and its own digest as hash; on it `isBlockValid`
does not return true or false but panics in `strings.Repeat`. -/
theorem isBlockValid_panics_on_negative_difficulty :
    forgedBlock.Index = wrap64 (genesis4.Index + 1) ∧
    forgedBlock.PrevHash = genesis4.Hash ∧
    calculateHash forgedBlock = forgedBlock.Hash ∧
    isBlockValid forgedBlock genesis4 = .panic "strings: negative Repeat count" := by
  decide!

/-! ## Difficulty adjuster: range of the result and of the look-back -/

/-- C12 (refuted on the code): on `slowChain`, whose blocks and tip all have
difficulty 0, the tip comes 201 seconds after the block read as reference, and
`getNewDifficulty` returns -1; mining the next block then panics. -/
theorem getNewDifficulty_negative :
    slowChain.getLast? = some slowTip ∧
    (∀ b ∈ slowChain, 0 ≤ b.Difficulty) ∧ 0 ≤ slowTip.Difficulty ∧
    getNewDifficulty sampleClock slowChain slowTip = .ok (-1) ∧
    generateBlock sampleClock slowChain sampleNow 1 slowTip 42 =
      .panic "strings: negative Repeat count" := by
  decide

/-- On a chain of at least 10 blocks the look-back is in range and `adjustDifficulty`
returns a difficulty. -/
theorem adjustDifficulty_ok (timeParse : String → Option Int) (chain : List Block)
    (tip : Block) (hlen : 10 ≤ chain.length) :
    ∃ d, adjustDifficulty timeParse chain tip = .ok d := by
  have hlt : chain.length - 10 < chain.length := by omega
  have hto : ((chain.length : Int) - 10).toNat = chain.length - 10 := by omega
  have hnn : ¬ ((chain.length : Int) - 10 < 0) := by omega
  have href : prevAdjustmentBlock chain = .ok chain[chain.length - 10] := by
    unfold prevAdjustmentBlock index DIFFICULTY_ADJUSTMENT_INTERVAL
    rw [if_neg hnn, hto, List.getElem?_eq_getElem hlt]
  unfold adjustDifficulty
  simp only [href]
  cases parseTimestamp timeParse tip.Timestamp with
  | none => exact ⟨_, rfl⟩
  | some lastTime =>
    cases parseTimestamp timeParse chain[chain.length - 10].Timestamp with
    | none => exact ⟨_, rfl⟩
    | some prevTime =>
      simp only
      split
      · exact ⟨_, rfl⟩
      · split <;> exact ⟨_, rfl⟩

/-- C13 (as amended): for a tip whose index is a positive multiple of 10,
`getNewDifficulty` returns a difficulty on every chain of at least 10 blocks, and on
every chain of fewer than 10 blocks it panics on the index `len - 10`: the look-back
is gated by the index of the tip only. -/
theorem getNewDifficulty_lookback (timeParse : String → Option Int) (chain : List Block)
    (tip : Block) (hpos : 0 < tip.Index) (hmul : (10 : Int) ∣ tip.Index) :
    (10 ≤ chain.length → ∃ d, getNewDifficulty timeParse chain tip = .ok d) ∧
    (chain.length < 10 →
      getNewDifficulty timeParse chain tip = .panic "index out of range") := by
  have hg : getNewDifficulty timeParse chain tip = adjustDifficulty timeParse chain tip := by
    unfold getNewDifficulty
    rw [if_pos (due_of_positive_multiple tip hpos hmul)]
  rw [hg]
  constructor
  · exact adjustDifficulty_ok timeParse chain tip
  · intro hlen
    have hneg : (chain.length : Int) - 10 < 0 := by omega
    unfold adjustDifficulty prevAdjustmentBlock index DIFFICULTY_ADJUSTMENT_INTERVAL
    simp only [if_pos hneg]

/-- Witness of C13 (as amended): the tip of `fastChain` gets a difficulty on
`fastChain` and a panic on the one-block chain. -/
theorem getNewDifficulty_lookback_witness :
    (∃ d, getNewDifficulty sampleClock fastChain fastTip = .ok d) ∧
    getNewDifficulty sampleClock [genesis4] fastTip = .panic "index out of range" :=
  ⟨(getNewDifficulty_lookback sampleClock fastChain fastTip (by decide) (by decide)).1
      (by decide),
   (getNewDifficulty_lookback sampleClock [genesis4] fastTip (by decide) (by decide)).2
      (by decide)⟩

/-- Counterexample to C13: on the one-block chain, a tip of index 10 makes
`getNewDifficulty` panic instead of returning a difficulty. -/
theorem getNewDifficulty_short_chain_panics :
    0 < (tipAt "2024-03-09 10:00:10 +0000 UTC").Index ∧
    (10 : Int) ∣ (tipAt "2024-03-09 10:00:10 +0000 UTC").Index ∧
    ¬ ∃ d, getNewDifficulty sampleClock [genesisBlock sampleNow]
      (tipAt "2024-03-09 10:00:10 +0000 UTC") = .ok d := by
  refine ⟨by decide, by decide, ?_⟩
  have h : getNewDifficulty sampleClock [genesisBlock sampleNow]
      (tipAt "2024-03-09 10:00:10 +0000 UTC") = .panic "index out of range" := by decide
  rw [h]
  rintro ⟨d, hd⟩
  cases hd

/-! ## Ledger: sequential proposals -/

/-- What `generateBlock` guarantees about a block it returns. -/
theorem generateBlock_fields (timeParse : String → Option Int) (chain : List Block)
    (now : String) (fuel : Nat) (p : Block) (v : Int) (b : Block)
    (h : generateBlock timeParse chain now fuel p v = .ok b) :
    b.Index = wrap64 (p.Index + 1) ∧ b.PrevHash = p.Hash ∧
      (0 ≤ b.Difficulty ∧ b.Difficulty ≤ maxAlloc) ∧
      calculateHash b = b.Hash ∧ leadingZeros b.Difficulty b.Hash := by
  unfold generateBlock at h
  cases hg : getNewDifficulty timeParse chain p with
  | panic msg => simp [hg] at h
  | outOfFuel => simp [hg] at h
  | ok d =>
    simp only [hg] at h
    obtain ⟨hnn, hloop⟩ := mineBlock_ok _ _ _ h
    obtain ⟨hi, -, -, hp, -, hd, hh, hz⟩ := mineLoop_ok _ _ _ _ hloop
    simp only at hi hp hd hz hnn
    refine ⟨hi, hp, by rw [hd]; exact hnn, hh.symm, ?_⟩
    unfold leadingZeros
    rw [hd]
    exact (hasPrefix_zeros _ _).mp hz

theorem index_last_iff (chain : List Block) (tip : Block) :
    index chain ((chain.length : Int) - 1) = .ok tip ↔ chain.getLast? = some tip := by
  rw [List.getLast?_eq_getElem?]
  unfold index
  by_cases hlen : chain.length = 0
  · have hnil : chain = [] := List.length_eq_zero.mp hlen
    subst hnil
    simp
  · have hnn : ¬ ((chain.length : Int) - 1 < 0) := by omega
    have hto : ((chain.length : Int) - 1).toNat = chain.length - 1 := by omega
    rw [if_neg hnn, hto]
    cases chain[chain.length - 1]? with
    | none => simp
    | some x => simp

theorem replaceChain_append (chain : List Block) (b : Block) :
    replaceChain chain (chain ++ [b]) = chain ++ [b] := by
  simp [replaceChain]

/-- The handler on a decoded payload, once the tip is read and mining has returned. -/
theorem handleWriteBlock_mined (timeParse : String → Option Int) (chain : List Block)
    (tip : Block) (v : Int) (now : String) (fuel : Nat) (b : Block)
    (htip : chain.getLast? = some tip)
    (hgen : generateBlock timeParse chain now fuel tip v = .ok b) :
    handleWriteBlock timeParse chain (some v) now fuel =
      match isBlockValid b tip with
      | .panic msg => .panic msg
      | .outOfFuel => .outOfFuel
      | .ok true => .ok (chain ++ [b], StatusCreated)
      | .ok false => .ok (chain, StatusCreated) := by
  unfold handleWriteBlock
  simp only [(index_last_iff chain tip).mpr htip, hgen, replaceChain_append]

/-- A sequential proposal leaves the chain as it is, or appends to it one block that
`isBlockValid` accepts against the tip. -/
theorem propose_cases (timeParse : String → Option Int) (chain : List Block) (req : Proposal) :
    propose timeParse chain req = chain ∨
    ∃ tip b, chain.getLast? = some tip ∧ isBlockValid b tip = .ok true ∧
      propose timeParse chain req = chain ++ [b] := by
  unfold propose
  cases hbody : req.body with
  | none => left; simp [handleWriteBlock]
  | some v =>
    cases hidx : index chain ((chain.length : Int) - 1) with
    | panic msg => left; simp [handleWriteBlock, hidx]
    | outOfFuel => left; simp [handleWriteBlock, hidx]
    | ok tip =>
      have htip := (index_last_iff chain tip).mp hidx
      cases hgen : generateBlock timeParse chain req.now req.fuel tip v with
      | panic msg => left; simp [handleWriteBlock, hidx, hgen]
      | outOfFuel => left; simp [handleWriteBlock, hidx, hgen]
      | ok b =>
        rw [handleWriteBlock_mined timeParse chain tip v req.now req.fuel b htip hgen]
        cases hv : isBlockValid b tip with
        | panic msg => left; rfl
        | outOfFuel => left; rfl
        | ok r =>
          cases r with
          | false => left; rfl
          | true => right; exact ⟨tip, b, htip, hv, rfl⟩

theorem wrap64_succ (x : Int) : wrap64 (wrap64 x + 1) = wrap64 (x + 1) := by
  unfold wrap64
  omega

theorem linked_genesis (now : String) : Linked [genesisBlock now] := by
  refine ⟨by simp, ?_, ?_⟩
  · intro i b h
    cases i with
    | zero =>
      simp at h
      subst h
      rfl
    | succ j => simp at h
  · intro i a b _ hb
    simp at hb

theorem linked_append (chain : List Block) (tip b : Block) (hl : Linked chain)
    (htip : chain.getLast? = some tip) (hv : isBlockValid b tip = .ok true) :
    Linked (chain ++ [b]) := by
  obtain ⟨hne, hidx, hpair⟩ := hl
  have hpos : 0 < chain.length := List.length_pos.mpr hne
  have hlast : chain[chain.length - 1]? = some tip := by
    rw [← List.getLast?_eq_getElem?]; exact htip
  obtain ⟨hbi, -, -⟩ := isBlockValid_true_inv b tip hv
  refine ⟨by simp, ?_, ?_⟩
  · intro i x hx
    by_cases hi : i < chain.length
    · rw [List.getElem?_append_left hi] at hx
      exact hidx i x hx
    · by_cases hi2 : i = chain.length
      · subst hi2
        rw [List.getElem?_concat_length] at hx
        have hxb : b = x := Option.some.inj hx
        subst hxb
        rw [← hbi, hidx _ _ hlast]
        have hcast : ((chain.length - 1 : Nat) : Int) = (chain.length : Int) - 1 := by omega
        rw [hcast, wrap64_succ]
        congr 1
        omega
      · have hge : (chain ++ [b]).length ≤ i := by
          simp only [List.length_append, List.length_singleton]; omega
        rw [List.getElem?_eq_none hge] at hx
        cases hx
  · intro i x y hx hy
    by_cases hi : i + 1 < chain.length
    · rw [List.getElem?_append_left hi] at hy
      rw [List.getElem?_append_left (by omega)] at hx
      exact hpair i x y hx hy
    · by_cases hi2 : i + 1 = chain.length
      · rw [hi2, List.getElem?_concat_length] at hy
        have hyb : b = y := Option.some.inj hy
        subst hyb
        have hi3 : i = chain.length - 1 := by omega
        rw [List.getElem?_append_left (by omega), hi3, hlast] at hx
        have hxt : tip = x := Option.some.inj hx
        subst hxt
        exact hv
      · have hge : (chain ++ [b]).length ≤ i + 1 := by
          simp only [List.length_append, List.length_singleton]; omega
        rw [List.getElem?_eq_none hge] at hy
        cases hy

theorem linked_propose (timeParse : String → Option Int) (chain : List Block) (req : Proposal)
    (hl : Linked chain) : Linked (propose timeParse chain req) := by
  rcases propose_cases timeParse chain req with h | ⟨tip, b, htip, hv, h⟩
  · rw [h]; exact hl
  · rw [h]; exact linked_append chain tip b hl htip hv

theorem linked_proposeAll (timeParse : String → Option Int) (reqs : List Proposal)
    (chain : List Block) (hl : Linked chain) : Linked (proposeAll timeParse chain reqs) := by
  unfold proposeAll
  induction reqs generalizing chain with
  | nil => exact hl
  | cons r rs ih => exact ih _ (linked_propose timeParse chain r hl)

/-- C14: every chain reached from the one-block chain `[genesis]` (index 0, empty
previous hash, difficulty 0) by a finite sequence of sequential proposals, whatever
their payloads and whether they succeed or fail, is non-empty, has the block of index
`i` at position `i`, and has every block accepted by `isBlockValid` against the block
before it, so that its previous hash is that block's hash.  (A Go slice holds fewer
than 2^63 blocks.) -/
theorem proposeAll_structurally_valid (timeParse : String → Option Int) (now : String)
    (reqs : List Proposal) (chain : List Block)
    (hreach : chain = proposeAll timeParse [genesisBlock now] reqs)
    (hlen : chain.length ≤ 9223372036854775808) :
    (genesisBlock now).Index = 0 ∧ (genesisBlock now).PrevHash = "" ∧
    (genesisBlock now).Difficulty = 0 ∧
    chain ≠ [] ∧
    (∀ (i : Nat) (b : Block), chain[i]? = some b → b.Index = i) ∧
    (∀ (i : Nat) (a b : Block), chain[i]? = some a → chain[i + 1]? = some b →
      isBlockValid b a = .ok true ∧ b.PrevHash = a.Hash) := by
  have hl : Linked chain := by
    rw [hreach]
    exact linked_proposeAll timeParse reqs _ (linked_genesis now)
  obtain ⟨hne, hidx, hpair⟩ := hl
  refine ⟨rfl, rfl, rfl, hne, ?_, ?_⟩
  · intro i b hb
    have hi : i < chain.length := by
      by_contra hge
      rw [List.getElem?_eq_none (not_lt.mp hge)] at hb
      cases hb
    rw [hidx i b hb]
    exact wrap64_of_range _ (by omega) (by omega)
  · intro i a b ha hb
    have hv := hpair i a b ha hb
    exact ⟨hv, (isBlockValid_true_inv b a hv).2.1.symm⟩

/-- Witness of C14: a proposal of payload 42 followed by a request whose body does not
decode leads from `[genesis0]` to `[genesis0, firstBlock]`, which is structurally
valid. -/
theorem proposeAll_structurally_valid_witness :
    proposeAll sampleClock [genesis0] [⟨some 42, sampleNow, 1⟩, ⟨none, sampleNow, 1⟩] =
      [genesis0, firstBlock] ∧
    isBlockValid firstBlock genesis0 = .ok true ∧ firstBlock.PrevHash = genesis0.Hash :=
  have hreach : [genesis0, firstBlock] =
      proposeAll sampleClock
        [genesisBlock "2024-03-09 10:14:15.000291345 +0000 UTC m=+0.004083921"]
        [⟨some 42, sampleNow, 1⟩, ⟨none, sampleNow, 1⟩] := by decide!
  ⟨hreach.symm,
   (proposeAll_structurally_valid sampleClock _ _ [genesis0, firstBlock] hreach
      (by decide)).2.2.2.2.2 0 genesis0 firstBlock rfl rfl⟩

/-- C15: on a non-empty chain `C`, of last block `tip`, a sequential proposal of payload `v`
in which mining returns the block `b` answers with status 201 and leaves the chain
`C ++ [b]` when `b` is valid against `tip`, and `C` itself when `b` is rejected; either
way the first `len(C)` blocks are the blocks of `C`, in order. -/
theorem handleWriteBlock_append_only (timeParse : String → Option Int) (C : List Block)
    (tip : Block) (v : Int) (now : String) (fuel : Nat) (b : Block)
    (htip : C.getLast? = some tip)
    (hgen : generateBlock timeParse C now fuel tip v = .ok b) :
    ∃ C', handleWriteBlock timeParse C (some v) now fuel = .ok (C', StatusCreated) ∧
      propose timeParse C ⟨some v, now, fuel⟩ = C' ∧
      ((isBlockValid b tip = .ok true ∧ C' = C ++ [b]) ∨
        (isBlockValid b tip = .ok false ∧ C' = C)) ∧
      C'.take C.length = C := by
  have hmined := handleWriteBlock_mined timeParse C tip v now fuel b htip hgen
  have hd := (generateBlock_fields _ _ _ _ _ _ _ hgen).2.2.1
  rcases isBlockValid_total_of_range b tip hd with hv | hv
  · rw [hv] at hmined
    refine ⟨C ++ [b], hmined, ?_, Or.inl ⟨hv, rfl⟩, List.take_left C [b]⟩
    unfold propose
    simp only [hmined]
  · rw [hv] at hmined
    refine ⟨C, hmined, ?_, Or.inr ⟨hv, rfl⟩, List.take_length C⟩
    unfold propose
    simp only [hmined]

/-- Witness of C15: payload 42 proposed on `[genesis0]` at `sampleNow` leaves
`[genesis0, firstBlock]`. -/
theorem handleWriteBlock_append_only_witness :
    generateBlock sampleClock [genesis0] sampleNow 1 genesis0 42 = .ok firstBlock ∧
    ∃ C', handleWriteBlock sampleClock [genesis0] (some 42) sampleNow 1 =
        .ok (C', StatusCreated) ∧
      propose sampleClock [genesis0] ⟨some 42, sampleNow, 1⟩ = C' ∧
      ((isBlockValid firstBlock genesis0 = .ok true ∧ C' = [genesis0] ++ [firstBlock]) ∨
        (isBlockValid firstBlock genesis0 = .ok false ∧ C' = [genesis0])) ∧
      C'.take [genesis0].length = [genesis0] :=
  have hgen : generateBlock sampleClock [genesis0] sampleNow 1 genesis0 42 = .ok firstBlock := by
    decide!
  ⟨hgen, handleWriteBlock_append_only sampleClock [genesis0] genesis0 42 sampleNow 1
    firstBlock rfl hgen⟩

/-- C17: every block `b` that `generateBlock` returns for a predecessor `p`, a payload
`v` and any chain satisfies `isBlockValid b p = true`; hence a sequential proposal on
the tip `p` whose mining returns is not rejected: it appends `b`. -/
theorem generateBlock_isBlockValid (timeParse : String → Option Int) (chain : List Block)
    (now : String) (fuel : Nat) (p : Block) (v : Int) (b : Block)
    (h : generateBlock timeParse chain now fuel p v = .ok b) :
    isBlockValid b p = .ok true ∧
    (chain.getLast? = some p →
      handleWriteBlock timeParse chain (some v) now fuel = .ok (chain ++ [b], StatusCreated)) := by
  obtain ⟨hi, hp, hd, hh, hz⟩ := generateBlock_fields _ _ _ _ _ _ _ h
  have hv : isBlockValid b p = .ok true :=
    (isBlockValid_ok_iff b p hd true).mpr ⟨fun _ => ⟨hi, hp, hh, hz⟩, fun _ => rfl⟩
  refine ⟨hv, fun htip => ?_⟩
  rw [handleWriteBlock_mined timeParse chain p v now fuel b htip h, hv]

/-- Witness of C17: the block mined at difficulty 4 from `genesis4` is accepted and
appended. -/
theorem generateBlock_isBlockValid_witness :
    isBlockValid minedBlock genesis4 = .ok true ∧
    handleWriteBlock sampleClock [genesis4] (some 42) sampleNow 3 =
      .ok ([genesis4, minedBlock], StatusCreated) :=
  have h := generateBlock_isBlockValid sampleClock [genesis4] sampleNow 3 genesis4 42
    minedBlock (by decide!)
  ⟨h.1, h.2 rfl⟩

/-! ## Miner: the nonce found -/

/-- C19: in a chain whose block at position `i` has index `i`, with `tip` its last
block: if the index of the tip is a positive multiple of 10, the chain has at least 11
blocks and the position `len - 10` read by `adjustDifficulty` is a position of the chain
and is at least 1; and in any case `getNewDifficulty tip` returns a difficulty. -/
theorem getNewDifficulty_in_range (timeParse : String → Option Int) (chain : List Block)
    (tip : Block) (hidx : ∀ (i : Nat) (b : Block), chain[i]? = some b → b.Index = i)
    (htip : chain.getLast? = some tip) :
    (0 < tip.Index → (10 : Int) ∣ tip.Index →
      11 ≤ chain.length ∧ 1 ≤ chain.length - 10 ∧ chain.length - 10 < chain.length ∧
      ∃ ref, chain[chain.length - 10]? = some ref ∧ prevAdjustmentBlock chain = .ok ref) ∧
    ∃ d, getNewDifficulty timeParse chain tip = .ok d := by
  have hlast : chain[chain.length - 1]? = some tip := by
    rw [← List.getLast?_eq_getElem?]; exact htip
  have hti : tip.Index = ((chain.length - 1 : Nat) : Int) := hidx _ _ hlast
  constructor
  · intro hpos hmul
    obtain ⟨c, hc⟩ := hmul
    have h11 : 11 ≤ chain.length := by omega
    have hlt : chain.length - 10 < chain.length := by omega
    refine ⟨h11, by omega, hlt, chain[chain.length - 10], List.getElem?_eq_getElem hlt, ?_⟩
    have hto : ((chain.length : Int) - 10).toNat = chain.length - 10 := by omega
    have hnn : ¬ ((chain.length : Int) - 10 < 0) := by omega
    unfold prevAdjustmentBlock index DIFFICULTY_ADJUSTMENT_INTERVAL
    rw [if_neg hnn, hto, List.getElem?_eq_getElem hlt]
  · unfold getNewDifficulty
    split
    · rename_i hdue
      have hdvd : (10 : Int) ∣ tip.Index := Int.dvd_of_tmod_eq_zero hdue.1
      obtain ⟨c, hc⟩ := hdvd
      have hne := hdue.2
      exact adjustDifficulty_ok timeParse chain tip (by omega)
    · exact ⟨_, rfl⟩

theorem fastChain_indexed (i : Nat) (b : Block) (h : fastChain[i]? = some b) :
    b.Index = i := by
  have key : ∀ j : Nat, j < 11 → fastChain[j]?.map Block.Index = some (j : Int) := by decide
  have hi : i < 11 := by
    by_contra hge
    have hlen : fastChain.length ≤ i := not_lt.mp hge
    rw [List.getElem?_eq_none hlen] at h
    cases h
  have hk := key i hi
  rw [h] at hk
  exact Option.some.inj hk

/-- Witness of C19: `fastChain`, eleven blocks with the index 10 at the tip, is read at
position 1, and `getNewDifficulty` returns on it. -/
theorem getNewDifficulty_in_range_witness :
    (11 ≤ fastChain.length ∧ 1 ≤ fastChain.length - 10 ∧
      fastChain.length - 10 < fastChain.length ∧
      ∃ ref, fastChain[fastChain.length - 10]? = some ref ∧
        prevAdjustmentBlock fastChain = .ok ref) ∧
    ∃ d, getNewDifficulty sampleClock fastChain fastTip = .ok d :=
  have h := getNewDifficulty_in_range sampleClock fastChain fastTip fastChain_indexed
    (by decide)
  ⟨h.1 (by decide) (by decide), h.2⟩

/-! ## Hasher: the digested text -/

/-- C20: the text digested by `calculateHash` does not determine the header: the
blocks `headerA` (index 1, timestamp "2") and `headerB` (index 12, empty timestamp)
agree on payload, previous hash and nonce, differ in index and timestamp, give the same
concatenated text, and so the same digest. -/
theorem calculateHash_not_injective :
    headerA.Index ≠ headerB.Index ∧ headerA.Timestamp ≠ headerB.Timestamp ∧
    headerA.BPM = headerB.BPM ∧ headerA.PrevHash = headerB.PrevHash ∧
    headerA.Nonce = headerB.Nonce ∧
    record headerA = record headerB ∧
    calculateHash headerA = calculateHash headerB := by
  have hrec : record headerA = record headerB := by decide
  refine ⟨by decide, by decide, rfl, rfl, rfl, hrec, ?_⟩
  unfold calculateHash
  rw [hrec]

end GoBlockchain
